import Mathlib

/-!
Verification of the file backup daemon (`file_backup_daemon.py`).

The development shallowly embeds the daemon's pure logic:
path manipulation (`posixpath.splitext`, `posixpath.join`,
`posixpath.dirname`), the exclusion-pattern regular-expression matching
(`re.match` on the joined alternation), the per-cycle change-detection
loop of `main`, the recursive directory enumerator `rec_file_iter`
together with its backup-directory mirroring, the flat enumerator, and
the retry-on-interrupt policy around `rsync_files`.

Machine conventions: modification times and wall-clock readings are
natural numbers (the daemon only compares them and renders them with
`:.0f`, which on integer values is decimal notation); filesystem
metadata is an abstract `Nat` token; the in-memory
`defaultdict(int)` of last-triggered times is an association list whose
lookup defaults to `0`.
-/

namespace FileBackupDaemon

/-! ### Path helpers, mirroring `posixpath` -/

/-- Index of the last occurrence of `c` in `l`, or `-1` when absent
(the result of Python's `str.rfind`). -/
def rfindIdx (c : Char) (l : List Char) : Int :=
  match l.reverse.findIdx? (fun x => x == c) with
  | some i => (l.length : Int) - 1 - (i : Int)
  | none => -1

/-- The scan inside `posixpath.splitext`: some position strictly between
the last separator and the last dot holds a character other than `.`
(so the basename is not entirely leading dots). -/
def extScan (l : List Char) (sepIdx dotIdx : Int) : Bool :=
  (List.range l.length).any (fun i =>
    decide (sepIdx < (i : Int)) && decide ((i : Int) < dotIdx) &&
      (l.getD i ' ' != '.'))

/-- `posixpath.splitext`: split off the extension at the last dot of the
basename, unless the basename consists only of leading dots. -/
def splitext (p : String) : String × String :=
  let l := p.data
  let s := rfindIdx '/' l
  let d := rfindIdx '.' l
  if d > s && extScan l s d then
    (⟨l.take d.toNat⟩, ⟨l.drop d.toNat⟩)
  else
    (p, "")

/-- First character is `/`: the `b.startswith('/')` test of
`posixpath.join`. -/
def headSep (s : String) : Bool :=
  match s.data with
  | [] => false
  | c :: _ => c == '/'

/-- Last character is `/`: the `a.endswith('/')` test of
`posixpath.join`. -/
def lastSep (s : String) : Bool :=
  match s.data.getLast? with
  | some c => c == '/'
  | none => false

/-- `posixpath.join` restricted to two components, as used by the daemon. -/
def joinPath (a b : String) : String :=
  if headSep b then b
  else if a.data.isEmpty || lastSep a then a ++ b
  else a ++ "/" ++ b

/-- Remove trailing `/` characters (Python's `str.rstrip('/')`). -/
def rstripSep (l : List Char) : List Char :=
  (l.reverse.dropWhile (fun c => c == '/')).reverse

/-- Every character is a separator. -/
def allSep (l : List Char) : Bool :=
  l.all (fun c => c == '/')

/-- `posixpath.dirname`. -/
def dirname (p : String) : String :=
  let l := p.data
  let i := rfindIdx '/' l
  let head := l.take (i + 1).toNat
  if !head.isEmpty && !allSep head then ⟨rstripSep head⟩ else ⟨head⟩

/-! ### The change-detection cycle of `main` -/

/-- A candidate file as seen by one polling cycle: its path relative to
the watched root and the modification time `os.path.getmtime` reports
for it during that cycle. -/
structure FileInfo where
  path : String
  mtime : Nat
deriving DecidableEq, Repr

/-- Lookup in the `last_change_time` association list; a missing key
yields the `defaultdict(int)` sentinel `0`. -/
def lastLookup : List (String × Nat) → String → Nat
  | [], _ => 0
  | q :: rest, p => if q.1 == p then q.2 else lastLookup rest p

/-- Store `t` under key `p`, replacing an existing binding. -/
def lastUpdate (l : List (String × Nat)) (p : String) (t : Nat) :
    List (String × Nat) :=
  match l with
  | [] => [(p, t)]
  | q :: rest => if q.1 == p then (p, t) :: rest else q :: lastUpdate rest p t

/-- The backup file name built by `main`:
`f'\x7bstem\x7d_\x7bchange_time:.0f\x7d\x7bextension\x7d'` with
`stem, extension = splitext(file)`. -/
def backupName (file : String) (m : Nat) : String :=
  (splitext file).1 ++ "_" ++ toString m ++ (splitext file).2

/-- Everything one polling cycle produces, assuming every copy
succeeds: the updated `last_change_time` map, the `(source, backup
path)` pairs of the copies performed, and the structured content of the
log lines written (`(source, backup path with the backup root and its
separator stripped)`). -/
structure CycleResult where
  last : List (String × Nat)
  backups : List (String × String)
  logRecords : List (String × String)
deriving DecidableEq, Repr

/-- One pass of the `for file in file_getter():` loop of `main`.
`bd` is the absolute backup directory, `cap path` the wall-clock
reading `time()` taken when `path` triggers, `files` the candidates
(path plus current mtime) in enumeration order, and the final argument
the incoming `last_change_time` map. -/
def pollCycle (bd : String) (cap : String → Nat) :
    List FileInfo → List (String × Nat) → CycleResult
  | [], last => ⟨last, [], []⟩
  | f :: fs, last =>
    if lastLookup last f.path < f.mtime then
      let bfile := joinPath bd (backupName f.path f.mtime)
      let r := pollCycle bd cap fs (lastUpdate last f.path (cap f.path))
      ⟨r.last, (f.path, bfile) :: r.backups,
        (f.path, ⟨bfile.data.drop (bd.data.length + 1)⟩) :: r.logRecords⟩
    else
      pollCycle bd cap fs last

/-! ### Basic lemmas about the cycle -/

theorem lastLookup_lastUpdate (l : List (String × Nat)) (p q : String) (t : Nat) :
    lastLookup (lastUpdate l p t) q = if q = p then t else lastLookup l q := by
  induction l with
  | nil =>
    by_cases h : q = p
    · subst h; simp [lastUpdate, lastLookup]
    · simp [lastUpdate, lastLookup, h, Ne.symm h]
  | cons a rest ih =>
    by_cases hap : a.1 = p
    · by_cases hq : q = p
      · subst hq; simp [lastUpdate, lastLookup, hap]
      · simp [lastUpdate, lastLookup, hap, hq, Ne.symm hq]
    · by_cases haq : a.1 = q
      · have hq : ¬ q = p := fun h => hap (haq.trans h)
        simp [lastUpdate, lastLookup, hap, haq, hq]
      · simp [lastUpdate, lastLookup, hap, haq, ih]

theorem pollCycle_backups_mem (bd : String) (cap : String → Nat) :
    ∀ (files : List FileInfo) (last : List (String × Nat)) (b : String × String),
      b ∈ (pollCycle bd cap files last).backups → b.1 ∈ files.map FileInfo.path
  | [], _, b, hb => by simp [pollCycle] at hb
  | f :: fs, last, b, hb => by
    by_cases h : lastLookup last f.path < f.mtime
    · simp only [pollCycle, if_pos h, List.mem_cons] at hb
      rcases hb with hb | hb
      · subst hb; simp
      · simpa using Or.inr (pollCycle_backups_mem bd cap fs _ b hb)
    · simp only [pollCycle, if_neg h] at hb
      simpa using Or.inr (pollCycle_backups_mem bd cap fs last b hb)

theorem pollCycle_log_eq_backups (bd : String) (cap : String → Nat) :
    ∀ (files : List FileInfo) (last : List (String × Nat)),
      ((pollCycle bd cap files last).logRecords).map Prod.fst
        = ((pollCycle bd cap files last).backups).map Prod.fst
  | [], _ => rfl
  | f :: fs, last => by
    by_cases h : lastLookup last f.path < f.mtime
    · simp [pollCycle, if_pos h, pollCycle_log_eq_backups bd cap fs]
    · simp [pollCycle, if_neg h, pollCycle_log_eq_backups bd cap fs]

theorem pollCycle_last_not_mem (bd : String) (cap : String → Nat) :
    ∀ (files : List FileInfo) (last : List (String × Nat)) (p : String),
      p ∉ files.map FileInfo.path →
        lastLookup (pollCycle bd cap files last).last p = lastLookup last p
  | [], _, _, _ => rfl
  | f :: fs, last, p, hp => by
    have hpf : p ≠ f.path := by
      intro h; exact hp (by simp [h])
    have hrest : p ∉ fs.map FileInfo.path := by
      intro h; exact hp (by simp [h])
    by_cases h : lastLookup last f.path < f.mtime
    · simp only [pollCycle, if_pos h]
      rw [pollCycle_last_not_mem bd cap fs _ p hrest,
        lastLookup_lastUpdate, if_neg hpf]
    · simp only [pollCycle, if_neg h]
      exact pollCycle_last_not_mem bd cap fs last p hrest

theorem pollCycle_lastLookup (bd : String) (cap : String → Nat) :
    ∀ (files : List FileInfo) (last : List (String × Nat)) (f : FileInfo),
      (files.map FileInfo.path).Nodup → f ∈ files →
        lastLookup (pollCycle bd cap files last).last f.path
          = if lastLookup last f.path < f.mtime then cap f.path
            else lastLookup last f.path
  | [], _, f, _, hf => absurd hf (List.not_mem_nil f)
  | g :: fs, last, f, hnd, hf => by
    have hgfs : g.path ∉ fs.map FileInfo.path := (List.nodup_cons.mp hnd).1
    have hndfs : (fs.map FileInfo.path).Nodup := (List.nodup_cons.mp hnd).2
    rcases List.mem_cons.mp hf with hfg | hfr
    · subst hfg
      by_cases h : lastLookup last f.path < f.mtime
      · simp only [pollCycle, if_pos h]
        rw [pollCycle_last_not_mem bd cap fs _ f.path hgfs,
          lastLookup_lastUpdate, if_pos rfl]
      · simp only [pollCycle, if_neg h]
        rw [pollCycle_last_not_mem bd cap fs last f.path hgfs]
    · have hne : f.path ≠ g.path := by
        intro h
        exact hgfs (h ▸ List.mem_map_of_mem FileInfo.path hfr)
      by_cases h : lastLookup last g.path < g.mtime
      · simp only [pollCycle, if_pos h]
        rw [pollCycle_lastLookup bd cap fs _ f hndfs hfr,
          lastLookup_lastUpdate, if_neg hne]
      · simp only [pollCycle, if_neg h]
        exact pollCycle_lastLookup bd cap fs last f hndfs hfr

theorem pollCycle_backup_iff (bd : String) (cap : String → Nat) :
    ∀ (files : List FileInfo) (last : List (String × Nat)) (f : FileInfo),
      (files.map FileInfo.path).Nodup → f ∈ files →
        ((∃ b ∈ (pollCycle bd cap files last).backups, b.1 = f.path) ↔
          lastLookup last f.path < f.mtime)
  | [], _, f, _, hf => absurd hf (List.not_mem_nil f)
  | g :: fs, last, f, hnd, hf => by
    have hgfs : g.path ∉ fs.map FileInfo.path := (List.nodup_cons.mp hnd).1
    have hndfs : (fs.map FileInfo.path).Nodup := (List.nodup_cons.mp hnd).2
    rcases List.mem_cons.mp hf with hfg | hfr
    · subst hfg
      by_cases h : lastLookup last f.path < f.mtime
      · simp only [pollCycle, if_pos h]
        constructor
        · intro _; exact h
        · intro _
          exact ⟨(f.path, joinPath bd (backupName f.path f.mtime)),
            List.mem_cons_self _ _, rfl⟩
      · simp only [pollCycle, if_neg h]
        constructor
        · rintro ⟨b, hb, hbp⟩
          have := pollCycle_backups_mem bd cap fs last b hb
          rw [hbp] at this
          exact absurd this hgfs
        · intro hc; exact absurd hc h
    · have hne : f.path ≠ g.path := by
        intro h
        exact hgfs (h ▸ List.mem_map_of_mem FileInfo.path hfr)
      by_cases h : lastLookup last g.path < g.mtime
      · simp only [pollCycle, if_pos h]
        have ih := pollCycle_backup_iff bd cap fs
          (lastUpdate last g.path (cap g.path)) f hndfs hfr
        rw [lastLookup_lastUpdate, if_neg hne] at ih
        constructor
        · rintro ⟨b, hb, hbp⟩
          rcases List.mem_cons.mp hb with hb0 | hbr
          · exact absurd (by rw [← hbp, hb0]) hne
          · exact ih.mp ⟨b, hbr, hbp⟩
        · intro hc
          rcases ih.mpr hc with ⟨b, hb, hbp⟩
          exact ⟨b, List.mem_cons_of_mem _ hb, hbp⟩
      · simp only [pollCycle, if_neg h]
        exact pollCycle_backup_iff bd cap fs last f hndfs hfr

theorem pollCycle_backup_entry (bd : String) (cap : String → Nat) :
    ∀ (files : List FileInfo) (last : List (String × Nat)) (f : FileInfo),
      (files.map FileInfo.path).Nodup → f ∈ files →
        lastLookup last f.path < f.mtime →
        (f.path, joinPath bd (backupName f.path f.mtime))
          ∈ (pollCycle bd cap files last).backups
  | [], _, f, _, hf, _ => absurd hf (List.not_mem_nil f)
  | g :: fs, last, f, hnd, hf, htrig => by
    have hgfs : g.path ∉ fs.map FileInfo.path := (List.nodup_cons.mp hnd).1
    have hndfs : (fs.map FileInfo.path).Nodup := (List.nodup_cons.mp hnd).2
    rcases List.mem_cons.mp hf with hfg | hfr
    · subst hfg
      simp only [pollCycle, if_pos htrig]
      exact List.mem_cons_self _ _
    · have hne : f.path ≠ g.path := by
        intro h
        exact hgfs (h ▸ List.mem_map_of_mem FileInfo.path hfr)
      by_cases h : lastLookup last g.path < g.mtime
      · simp only [pollCycle, if_pos h]
        refine List.mem_cons_of_mem _ ?_
        refine pollCycle_backup_entry bd cap fs _ f hndfs hfr ?_
        rwa [lastLookup_lastUpdate, if_neg hne]
      · simp only [pollCycle, if_neg h]
        exact pollCycle_backup_entry bd cap fs last f hndfs hfr htrig

/-! ### Claim C1: the monotonic trigger -/

/-- C1: in a polling cycle, a backup copy of a yielded candidate `f` is
created if and only if `f`'s current modification time strictly exceeds
the last value recorded for its path, and a never-seen path's recorded
value is the sentinel `0` (less than any real, positive modification
time). -/
theorem backup_created_iff_mtime_exceeds_recorded
    (bd : String) (cap : String → Nat) (files : List FileInfo)
    (last : List (String × Nat)) (f : FileInfo)
    (hnd : (files.map FileInfo.path).Nodup) (hf : f ∈ files) :
    lastLookup [] f.path = 0 ∧
      ((∃ b ∈ (pollCycle bd cap files last).backups, b.1 = f.path) ↔
        lastLookup last f.path < f.mtime) :=
  ⟨rfl, pollCycle_backup_iff bd cap files last f hnd hf⟩

/-- C1 witness: concrete instance of the trigger characterisation. -/
theorem backup_created_iff_mtime_exceeds_recorded_witness :
    lastLookup [] "a.txt" = 0 ∧
      ((∃ b ∈ (pollCycle "/bk" (fun _ => 7)
            [⟨"a.txt", 5⟩] []).backups, b.1 = "a.txt") ↔
        lastLookup [] "a.txt" < 5) :=
  backup_created_iff_mtime_exceeds_recorded "/bk" (fun _ => 7)
    [⟨"a.txt", 5⟩] [] ⟨"a.txt", 5⟩ (by decide) (by decide)

/-! ### Claim C3: idempotence for unchanged files -/

/-- C3 counterexample: the bookkeeping stores the capture wall-clock
time, not the observed mtime, so a file whose mtime (here `10`) is
ahead of the wall clock (capture reading `3`) is backed up again in the
next cycle even though its mtime did not change: both cycles copy it
and both cycles append a log record for it. -/
theorem unchanged_file_backed_up_again :
    (pollCycle "/bk" (fun _ => 3) [⟨"f.txt", 10⟩] []).backups
        = [("f.txt", "/bk/f_10.txt")] ∧
    (pollCycle "/bk" (fun _ => 4) [⟨"f.txt", 10⟩]
        (pollCycle "/bk" (fun _ => 3) [⟨"f.txt", 10⟩] []).last).backups
        = [("f.txt", "/bk/f_10.txt")] ∧
    (pollCycle "/bk" (fun _ => 4) [⟨"f.txt", 10⟩]
        (pollCycle "/bk" (fun _ => 3) [⟨"f.txt", 10⟩] []).last).logRecords
        = [("f.txt", "f_10.txt")] := by decide

/-- C3 amended: for a file whose mtime does not change between two
consecutive cycles, if the wall-clock capture reading taken when the
file triggers in the first cycle is at least the file's mtime (true
whenever mtimes are not in the future), the second cycle creates no
backup of it and appends no log record for it. -/
theorem unchanged_file_idempotent
    (bd : String) (cap cap2 : String → Nat) (files : List FileInfo)
    (last : List (String × Nat)) (f : FileInfo)
    (hnd : (files.map FileInfo.path).Nodup) (hf : f ∈ files)
    (hclock : lastLookup last f.path < f.mtime → f.mtime ≤ cap f.path) :
    (∀ b ∈ (pollCycle bd cap2 files
        (pollCycle bd cap files last).last).backups, b.1 ≠ f.path) ∧
    (∀ r ∈ (pollCycle bd cap2 files
        (pollCycle bd cap files last).last).logRecords, r.1 ≠ f.path) := by
  have h1 : f.mtime ≤ lastLookup (pollCycle bd cap files last).last f.path := by
    have h := pollCycle_lastLookup bd cap files last f hnd hf
    by_cases ht : lastLookup last f.path < f.mtime
    · rw [if_pos ht] at h; rw [h]; exact hclock ht
    · rw [if_neg ht] at h; rw [h]; exact Nat.le_of_not_lt ht
  have hnb : ¬ ∃ b ∈ (pollCycle bd cap2 files
      (pollCycle bd cap files last).last).backups, b.1 = f.path := by
    rw [pollCycle_backup_iff bd cap2 files _ f hnd hf]
    exact Nat.not_lt.mpr h1
  refine ⟨fun b hb hbp => hnb ⟨b, hb, hbp⟩, fun r hr hrp => ?_⟩
  have hm : r.1 ∈ ((pollCycle bd cap2 files
      (pollCycle bd cap files last).last).backups).map Prod.fst := by
    rw [← pollCycle_log_eq_backups]
    exact List.mem_map_of_mem Prod.fst hr
  rcases List.mem_map.mp hm with ⟨b, hb, hbeq⟩
  exact hnb ⟨b, hb, hbeq.trans hrp⟩

/-- C3 amended witness: with a sane clock (capture reading `7`, mtime
`5`), the second cycle neither copies the unchanged file nor logs it. -/
theorem unchanged_file_idempotent_witness :
    (lastLookup [] "a.txt" < 5 → 5 ≤ 7) ∧
    ((∀ b ∈ (pollCycle "/bk" (fun _ => 9) [⟨"a.txt", 5⟩]
        (pollCycle "/bk" (fun _ => 7) [⟨"a.txt", 5⟩] []).last).backups,
        b.1 ≠ "a.txt") ∧
     (∀ r ∈ (pollCycle "/bk" (fun _ => 9) [⟨"a.txt", 5⟩]
        (pollCycle "/bk" (fun _ => 7) [⟨"a.txt", 5⟩] []).last).logRecords,
        r.1 ≠ "a.txt")) :=
  ⟨fun _ => by decide,
    unchanged_file_idempotent "/bk" (fun _ => 7) (fun _ => 9)
      [⟨"a.txt", 5⟩] [] ⟨"a.txt", 5⟩ (by decide) (by decide) (fun _ => by decide)⟩

/-! ### Claim C4: the recorded value is the capture time -/

/-- C4: when a backup of `f` is triggered, the value recorded for its
path afterwards is the wall-clock capture reading `cap f.path`, not the
modification time `f.mtime` read from disk. -/
theorem last_recorded_set_to_capture_time
    (bd : String) (cap : String → Nat) (files : List FileInfo)
    (last : List (String × Nat)) (f : FileInfo)
    (hnd : (files.map FileInfo.path).Nodup) (hf : f ∈ files)
    (htrig : lastLookup last f.path < f.mtime) :
    lastLookup (pollCycle bd cap files last).last f.path = cap f.path ∧
      (cap f.path ≠ f.mtime →
        lastLookup (pollCycle bd cap files last).last f.path ≠ f.mtime) := by
  have h := pollCycle_lastLookup bd cap files last f hnd hf
  rw [if_pos htrig] at h
  exact ⟨h, fun hne => h ▸ hne⟩

/-- C4 witness: mtime `5`, capture reading `7`: the map records `7`. -/
theorem last_recorded_set_to_capture_time_witness :
    lastLookup [] "a.txt" < 5 ∧
      (lastLookup (pollCycle "/bk" (fun _ => 7)
          [⟨"a.txt", 5⟩] []).last "a.txt" = 7 ∧
        ((7 : Nat) ≠ 5 →
          lastLookup (pollCycle "/bk" (fun _ => 7)
            [⟨"a.txt", 5⟩] []).last "a.txt" ≠ 5)) :=
  ⟨by decide,
    last_recorded_set_to_capture_time "/bk" (fun _ => 7)
      [⟨"a.txt", 5⟩] [] ⟨"a.txt", 5⟩ (by decide) (by decide) (by decide)⟩

/-! ### Claim C5: destination naming -/

/-- C5: a triggered backup of `f` is copied to the path obtained by
inserting `_` and the integer-rendered mtime between the stem and the
extension of `f`'s relative path, joined under the backup root (hence
in the mirrored relative directory). -/
theorem backup_destination_name
    (bd : String) (cap : String → Nat) (files : List FileInfo)
    (last : List (String × Nat)) (f : FileInfo)
    (hnd : (files.map FileInfo.path).Nodup) (hf : f ∈ files)
    (htrig : lastLookup last f.path < f.mtime) :
    (f.path, joinPath bd
        ((splitext f.path).1 ++ "_" ++ toString f.mtime ++ (splitext f.path).2))
      ∈ (pollCycle bd cap files last).backups :=
  pollCycle_backup_entry bd cap files last f hnd hf htrig

/-- C5 witness: `a/report.txt` with integer mtime `1700000000` is
copied to `report_1700000000.txt` in the mirrored directory `a` under
the backup root. -/
theorem backup_destination_name_witness :
    lastLookup [] "a/report.txt" < 1700000000 ∧
      ("a/report.txt", "/bk/a/report_1700000000.txt")
        ∈ (pollCycle "/bk" (fun _ => 1700000001)
            [⟨"a/report.txt", 1700000000⟩] []).backups :=
  ⟨by decide,
    backup_destination_name "/bk" (fun _ => 1700000001)
      [⟨"a/report.txt", 1700000000⟩] [] ⟨"a/report.txt", 1700000000⟩
      (by decide) (by decide) (by decide)⟩

/-! ### The exclusion filter: `re.match` over the joined alternation

The CLI joins the `--exclude` patterns as
`'|'.join(f'(\x7bpattern\x7d)' for pattern in exclude_patterns)` and tests
file base names with `re.match`, which anchors the match at the start
of the string (a prefix of the string must match; `$` matches only at
the end of the string or just before a terminating newline). The
fragment of regular expressions the claims need: literal characters,
concatenation, alternation and the `$` anchor. -/

inductive Regex where
  | eps
  | char (c : Char)
  | seq (a b : Regex)
  | alt (a b : Regex)
  | dollar
deriving DecidableEq, Repr

/-- All possible remainders after matching `r` against a prefix of
`cs`, starting at the current position (position 0 for `re.match`). -/
def reDeriv : Regex → List Char → List (List Char)
  | .eps, cs => [cs]
  | .char _, [] => []
  | .char c, c2 :: cs => if c = c2 then [cs] else []
  | .seq a b, cs => (reDeriv a cs).flatMap (reDeriv b)
  | .alt a b, cs => reDeriv a cs ++ reDeriv b cs
  | .dollar, cs => if cs = [] ∨ cs = ['\n'] then [cs] else []

/-- `re.match(r, cs)` is truthy: some prefix of `cs` starting at
position 0 matches `r`. -/
def reMatch (r : Regex) (cs : List Char) : Bool :=
  !(reDeriv r cs).isEmpty

/-- `'|'.join(...)` over the configured patterns (the grouping
parentheses written around each pattern do not change the language). -/
def altJoin : List Regex → Regex
  | [] => .eps
  | [r] => r
  | r :: rest => .alt r (altJoin rest)

/-- The `filtering_rule` built when `--exclude` patterns are present:
keep a base name iff `re.match` on the joined alternation fails. -/
def excludeFilter (pats : List Regex) (name : String) : Bool :=
  !(reMatch (altJoin pats) name.data)

/-- The pattern `\.tmp$` from the spec's example. -/
def tmpPat : Regex :=
  .seq (.char '.') (.seq (.char 't') (.seq (.char 'm') (.seq (.char 'p') .dollar)))

theorem reDeriv_seq_char_nil (c : Char) (r : Regex) :
    reDeriv (.seq (.char c) r) [] = [] := by
  simp [reDeriv]

theorem reDeriv_seq_char_cons (c x : Char) (r : Regex) (xs : List Char) :
    reDeriv (.seq (.char c) r) (x :: xs)
      = if c = x then reDeriv r xs else [] := by
  by_cases h : c = x <;> simp [reDeriv, h]

theorem reMatch_alt (a b : Regex) (cs : List Char) :
    reMatch (.alt a b) cs = (reMatch a cs || reMatch b cs) := by
  simp only [reMatch, reDeriv]
  rcases hA : reDeriv a cs with _ | ⟨x, xs⟩ <;>
    rcases hB : reDeriv b cs with _ | ⟨y, ys⟩ <;> simp [List.isEmpty]

theorem excludeFilter_forall (p : Regex) :
    ∀ (pats : List Regex) (name : String),
      (excludeFilter (p :: pats) name = true ↔
        ∀ q ∈ p :: pats, reMatch q name.data = false)
  | [], name => by
    simp only [excludeFilter, altJoin]
    cases h : reMatch p name.data <;> simp [h]
  | q :: rest, name => by
    have ih := excludeFilter_forall q rest name
    simp only [excludeFilter, altJoin, reMatch_alt] at ih ⊢
    rw [List.forall_mem_cons, ← ih]
    cases hp : reMatch p name.data <;>
      cases hb : reMatch (altJoin (q :: rest)) name.data <;> simp [hp, hb]

theorem reMatch_tmpPat (cs : List Char) :
    reMatch tmpPat cs = true ↔
      cs = ['.', 't', 'm', 'p'] ∨ cs = ['.', 't', 'm', 'p', '\n'] := by
  unfold reMatch tmpPat
  rcases cs with _ | ⟨c1, cs⟩
  · simp [reDeriv_seq_char_nil]
  rw [reDeriv_seq_char_cons]
  by_cases h1 : ('.' : Char) = c1
  case neg =>
    have h1' : c1 ≠ '.' := fun h => h1 h.symm
    simp [h1, h1']
  subst h1
  rw [if_pos rfl]
  rcases cs with _ | ⟨c2, cs⟩
  · simp [reDeriv_seq_char_nil]
  rw [reDeriv_seq_char_cons]
  by_cases h2 : ('t' : Char) = c2
  case neg =>
    have h2' : c2 ≠ 't' := fun h => h2 h.symm
    simp [h2, h2']
  subst h2
  rw [if_pos rfl]
  rcases cs with _ | ⟨c3, cs⟩
  · simp [reDeriv_seq_char_nil]
  rw [reDeriv_seq_char_cons]
  by_cases h3 : ('m' : Char) = c3
  case neg =>
    have h3' : c3 ≠ 'm' := fun h => h3 h.symm
    simp [h3, h3']
  subst h3
  rw [if_pos rfl]
  rcases cs with _ | ⟨c4, cs⟩
  · simp [reDeriv_seq_char_nil]
  rw [reDeriv_seq_char_cons]
  by_cases h4 : ('p' : Char) = c4
  case neg =>
    have h4' : c4 ≠ 'p' := fun h => h4 h.symm
    simp [h4, h4']
  subst h4
  rw [if_pos rfl]
  by_cases h5 : cs = []
  · subst h5; simp [reDeriv]
  by_cases h6 : cs = ['\n']
  · subst h6; simp [reDeriv]
  · simp [reDeriv, h5, h6, if_neg (not_or.mpr ⟨h5, h6⟩)]

/-! ### Claim C2: the exclusion example -/

/-- C2 counterexample: with `--exclude '\.tmp$'` configured, the file
`x.tmp` passes the filter (since `re.match` anchors the pattern at the
start of the string, where `\.tmp$` cannot match), so an mtime change
does back it up — contradicting "a file named `x.tmp` is never backed
up regardless of mtime changes." -/
theorem excluded_tmp_file_backed_up :
    excludeFilter [tmpPat] "x.tmp" = true ∧
    (pollCycle "/bk" (fun _ => 9)
        (([⟨"x.tmp", 5⟩] : List FileInfo).filter
          (fun f => excludeFilter [tmpPat] f.path)) []).backups
      = [("x.tmp", "/bk/x_5.tmp")] := by decide

/-- C2 amended: when exclusion patterns are configured a file is
yielded only if its base name matches none of them under the
start-of-string-anchored alternation. Consequently, with
`--exclude '\.tmp$'` the only excluded base names are `.tmp` itself
(and `.tmp` followed by a newline); both `x.tmp` and `x.txt` are backed
up normally. -/
theorem exclusion_filter_anchored
    (p : Regex) (pats : List Regex) (name : String) :
    (excludeFilter (p :: pats) name = true ↔
      ∀ q ∈ p :: pats, reMatch q name.data = false) ∧
    (excludeFilter [tmpPat] name = false ↔
      (name.data = ['.', 't', 'm', 'p'] ∨
        name.data = ['.', 't', 'm', 'p', '\n'])) ∧
    (pollCycle "/bk" (fun _ => 9)
        (([⟨"x.tmp", 5⟩, ⟨"x.txt", 5⟩] : List FileInfo).filter
          (fun f => excludeFilter [tmpPat] f.path)) []).backups
      = [("x.tmp", "/bk/x_5.tmp"), ("x.txt", "/bk/x_5.txt")] := by
  refine ⟨excludeFilter_forall p pats name, ?_, by decide⟩
  rw [← reMatch_tmpPat name.data]
  simp [excludeFilter, altJoin]

/-- C2 amended witness: the base name `.tmp` is the one the anchored
pattern excludes. -/
theorem exclusion_filter_anchored_witness :
    excludeFilter [tmpPat] ".tmp" = false ↔
      ((".tmp" : String).data = ['.', 't', 'm', 'p'] ∨
        (".tmp" : String).data = ['.', 't', 'm', 'p', '\n']) :=
  (exclusion_filter_anchored tmpPat [] ".tmp").2.1

/-! ### The recursive enumerator `rec_file_iter`

`rec_file_iter` iterates over `sorted(walk('.'))`. A walk entry is
modelled as the pair of the directory path exactly as `os.walk` yields
it (`'.'`, `'./a'`, ...) and the `file_names` list in the order the
operating system returned it; the daemon ignores the `dir_names`
component (and, the first components being distinct paths, `sorted`
orders the triples by that first component alone). The backup-side
directory tree is an association list from directory path (trailing
separators stripped — the normalisation under which `isdir`, `mkdir`
and `copystat` treat `p` and `p/` alike) to the metadata token last
copied onto it; source-directory metadata is the function `srcMeta`
from the `[2:]`-stripped folder name to its current metadata token. -/

structure BackupFS where
  dirs : List (String × Nat)
deriving DecidableEq, Repr

/-- Strip trailing separators from a directory path. -/
def normDir (p : String) : String :=
  ⟨rstripSep p.data⟩

/-- First-match lookup in the backup directory listing. -/
def dirFind : List (String × Nat) → String → Option Nat
  | [], _ => none
  | q :: rest, p => if q.1 == p then some q.2 else dirFind rest p

/-- `os.path.isdir` / `copystat` view of the backup tree. -/
def dirLookup (fs : BackupFS) (p : String) : Option Nat :=
  dirFind fs.dirs p

/-- `folder_name[2:]`: the walk path with the leading `./` stripped. -/
def walkFolder (e : String × List String) : String :=
  ⟨e.1.data.drop 2⟩

/-- The backup-side directory corresponding to a walk entry
(`dir_to_save = join_path(backup_dir, folder_name)`), normalised. -/
def walkDir (bd : String) (e : String × List String) : String :=
  normDir (joinPath bd (walkFolder e))

/-- `sorted(walk('.'))`. -/
def sortWalk (w : List (String × List String)) : List (String × List String) :=
  w.mergeSort (fun a b => decide (a.1 ≤ b.1))

/-- What one generator run of `rec_file_iter` produces: the yielded
relative file paths in order, the backup tree afterwards, and the list
of backup-side directories created (`mkdir` + `copystat`) during the
run. -/
structure IterResult where
  yields : List String
  fs : BackupFS
  created : List String
deriving DecidableEq, Repr

/-- The `for (folder_name, _, file_names) in sorted(walk('.'))` body:
lazily create and `copystat` the matching backup-side directory when it
does not exist, then yield the filtered file names joined onto the
folder path. -/
def recIterGo (bd : String) (rule : String → Bool) (srcMeta : String → Nat) :
    List (String × List String) → BackupFS → IterResult
  | [], fs => ⟨[], fs, []⟩
  | e :: rest, fs =>
    let fs1 : BackupFS :=
      if (dirLookup fs (walkDir bd e)).isSome then fs
      else ⟨(walkDir bd e, srcMeta (walkFolder e)) :: fs.dirs⟩
    let created1 : List String :=
      if (dirLookup fs (walkDir bd e)).isSome then [] else [walkDir bd e]
    let r := recIterGo bd rule srcMeta rest fs1
    ⟨(e.2.filter rule).map (fun fn => joinPath (walkFolder e) fn) ++ r.yields,
      r.fs, created1 ++ r.created⟩

/-- A full generator run of `rec_file_iter`: iterate over the sorted
walk and finally `copystat('.', backup_dir)` — copy the watched root's
current metadata onto the backup root. -/
def recFileIter (bd : String) (rule : String → Bool) (srcMeta : String → Nat)
    (w : List (String × List String)) (fs : BackupFS) : IterResult :=
  let r := recIterGo bd rule srcMeta (sortWalk w) fs
  ⟨r.yields, ⟨lastUpdate r.fs.dirs (normDir bd) (srcMeta "")⟩, r.created⟩

/-- The flat (non-recursive) enumerator needs the kind of each
directory entry; `os.path.isfile` follows symbolic links. -/
inductive EntryKind where
  | regular
  | directory
  | symlinkToRegular
  | symlinkToDir
  | brokenSymlink
deriving DecidableEq, Repr

structure DirEnt where
  name : String
  kind : EntryKind
deriving DecidableEq, Repr

/-- `os.path.isfile`: true for a regular file or a symbolic link that
resolves to a regular file. -/
def isfile : EntryKind → Bool
  | .regular => true
  | .symlinkToRegular => true
  | _ => false

/-- The non-recursive `file_getter` of `main`:
`filter(lambda f: isfile(f) and filtering_rule(f), listdir())`. -/
def flatFileGetter (rule : String → Bool) (entries : List DirEnt) : List String :=
  (entries.filter (fun e => isfile e.kind && rule e.name)).map (fun e => e.name)

/-! ### Lemmas about the recursive enumerator -/

theorem dirFind_lastUpdate (l : List (String × Nat)) (p q : String) (t : Nat) :
    dirFind (lastUpdate l p t) q = if q = p then some t else dirFind l q := by
  induction l with
  | nil =>
    by_cases h : q = p
    · subst h; simp [lastUpdate, dirFind]
    · simp [lastUpdate, dirFind, h, Ne.symm h]
  | cons a rest ih =>
    by_cases hap : a.1 = p
    · by_cases hq : q = p
      · subst hq; simp [lastUpdate, dirFind, hap]
      · simp [lastUpdate, dirFind, hap, hq, Ne.symm hq]
    · by_cases haq : a.1 = q
      · have hq : ¬ q = p := fun h => hap (haq.trans h)
        simp [lastUpdate, dirFind, hap, haq, hq]
      · simp [lastUpdate, dirFind, hap, haq, ih]

theorem recIterGo_fs_stable (bd : String) (rule : String → Bool)
    (srcMeta : String → Nat) :
    ∀ (w : List (String × List String)) (fs : BackupFS) (p : String) (m : Nat),
      dirLookup fs p = some m →
        dirLookup (recIterGo bd rule srcMeta w fs).fs p = some m
  | [], _, _, _, h => h
  | e :: rest, fs, p, m, h => by
    by_cases hd : (dirLookup fs (walkDir bd e)).isSome
    · simp only [recIterGo, if_pos hd]
      exact recIterGo_fs_stable bd rule srcMeta rest fs p m h
    · simp only [recIterGo, if_neg hd]
      refine recIterGo_fs_stable bd rule srcMeta rest _ p m ?_
      have hne : walkDir bd e ≠ p := by
        intro he
        rw [he, h] at hd
        exact hd rfl
      show dirFind ((walkDir bd e, srcMeta (walkFolder e)) :: fs.dirs) p = some m
      simp only [dirFind, beq_iff_eq, if_neg hne]
      exact h

theorem recIterGo_fs_stable_isSome (bd : String) (rule : String → Bool)
    (srcMeta : String → Nat) (w : List (String × List String)) (fs : BackupFS)
    (p : String) (h : (dirLookup fs p).isSome) :
    (dirLookup (recIterGo bd rule srcMeta w fs).fs p).isSome := by
  rcases Option.isSome_iff_exists.mp h with ⟨m, hm⟩
  rw [recIterGo_fs_stable bd rule srcMeta w fs p m hm]
  rfl

theorem recIterGo_visited_present (bd : String) (rule : String → Bool)
    (srcMeta : String → Nat) :
    ∀ (w : List (String × List String)) (fs : BackupFS)
      (e : String × List String), e ∈ w →
      (dirLookup (recIterGo bd rule srcMeta w fs).fs (walkDir bd e)).isSome
  | [], _, e, he => absurd he (List.not_mem_nil e)
  | e0 :: rest, fs, e, he => by
    rcases List.mem_cons.mp he with h | h
    · subst h
      by_cases hd : (dirLookup fs (walkDir bd e)).isSome
      · simp only [recIterGo, if_pos hd]
        exact recIterGo_fs_stable_isSome bd rule srcMeta rest fs _ hd
      · simp only [recIterGo, if_neg hd]
        apply recIterGo_fs_stable_isSome
        show (dirFind ((walkDir bd e, srcMeta (walkFolder e)) :: fs.dirs)
          (walkDir bd e)).isSome
        simp [dirFind]
    · by_cases hd : (dirLookup fs (walkDir bd e0)).isSome
      · simp only [recIterGo, if_pos hd]
        exact recIterGo_visited_present bd rule srcMeta rest fs e h
      · simp only [recIterGo, if_neg hd]
        exact recIterGo_visited_present bd rule srcMeta rest _ e h

theorem recIterGo_created_absent (bd : String) (rule : String → Bool)
    (srcMeta : String → Nat) :
    ∀ (w : List (String × List String)) (fs : BackupFS) (d : String),
      d ∈ (recIterGo bd rule srcMeta w fs).created → dirLookup fs d = none
  | [], _, d, h => absurd h (List.not_mem_nil d)
  | e :: rest, fs, d, h => by
    by_cases hd : (dirLookup fs (walkDir bd e)).isSome
    · simp only [recIterGo, if_pos hd, List.nil_append] at h
      exact recIterGo_created_absent bd rule srcMeta rest fs d h
    · simp only [recIterGo, if_neg hd] at h
      rcases List.mem_append.mp h with h1 | h1
      · have hde : d = walkDir bd e := by simpa using h1
        subst hde
        exact Option.not_isSome_iff_eq_none.mp hd
      · by_cases hde : walkDir bd e = d
        · subst hde
          exact Option.not_isSome_iff_eq_none.mp hd
        · have habs := recIterGo_created_absent bd rule srcMeta rest _ d h1
          simp only [dirLookup, dirFind, beq_iff_eq, if_neg hde] at habs
          exact habs

theorem recIterGo_absent_created (bd : String) (rule : String → Bool)
    (srcMeta : String → Nat) :
    ∀ (w : List (String × List String)) (fs : BackupFS)
      (e : String × List String), e ∈ w →
      dirLookup fs (walkDir bd e) = none →
      walkDir bd e ∈ (recIterGo bd rule srcMeta w fs).created
  | [], _, e, he, _ => absurd he (List.not_mem_nil e)
  | e0 :: rest, fs, e, he, habs => by
    rcases List.mem_cons.mp he with h | h
    · subst h
      have hd : ¬ (dirLookup fs (walkDir bd e)).isSome := by simp [habs]
      simp only [recIterGo, if_neg hd]
      exact List.mem_append.mpr (Or.inl (by simp))
    · by_cases hd : (dirLookup fs (walkDir bd e0)).isSome
      · simp only [recIterGo, if_pos hd, List.nil_append]
        exact recIterGo_absent_created bd rule srcMeta rest fs e h habs
      · simp only [recIterGo, if_neg hd]
        by_cases hde : walkDir bd e0 = walkDir bd e
        · exact List.mem_append.mpr (Or.inl (by simp [hde]))
        · refine List.mem_append.mpr (Or.inr ?_)
          refine recIterGo_absent_created bd rule srcMeta rest _ e h ?_
          show dirFind ((walkDir bd e0, srcMeta (walkFolder e0)) :: fs.dirs)
            (walkDir bd e) = none
          simp only [dirFind, beq_iff_eq, if_neg hde]
          exact habs

theorem recIterGo_created_value (bd : String) (rule : String → Bool)
    (srcMeta : String → Nat) :
    ∀ (w : List (String × List String)) (fs : BackupFS)
      (e : String × List String), (w.map (walkDir bd)).Nodup → e ∈ w →
      dirLookup fs (walkDir bd e) = none →
      dirLookup (recIterGo bd rule srcMeta w fs).fs (walkDir bd e)
        = some (srcMeta (walkFolder e))
  | [], _, e, _, he, _ => absurd he (List.not_mem_nil e)
  | e0 :: rest, fs, e, hnd, he, habs => by
    have hnd0 : walkDir bd e0 ∉ rest.map (walkDir bd) := (List.nodup_cons.mp hnd).1
    have hndr : (rest.map (walkDir bd)).Nodup := (List.nodup_cons.mp hnd).2
    rcases List.mem_cons.mp he with h | h
    · subst h
      have hd : ¬ (dirLookup fs (walkDir bd e)).isSome := by simp [habs]
      simp only [recIterGo, if_neg hd]
      apply recIterGo_fs_stable
      show dirFind ((walkDir bd e, srcMeta (walkFolder e)) :: fs.dirs)
        (walkDir bd e) = some (srcMeta (walkFolder e))
      simp [dirFind]
    · have hde : walkDir bd e0 ≠ walkDir bd e := by
        intro hh
        exact hnd0 (hh ▸ List.mem_map_of_mem (walkDir bd) h)
      by_cases hd : (dirLookup fs (walkDir bd e0)).isSome
      · simp only [recIterGo, if_pos hd]
        exact recIterGo_created_value bd rule srcMeta rest fs e hndr h habs
      · simp only [recIterGo, if_neg hd]
        refine recIterGo_created_value bd rule srcMeta rest _ e hndr h ?_
        show dirFind ((walkDir bd e0, srcMeta (walkFolder e0)) :: fs.dirs)
          (walkDir bd e) = none
        simp only [dirFind, beq_iff_eq, if_neg hde]
        exact habs

theorem recIterGo_nocreate_fs (bd : String) (rule : String → Bool)
    (srcMeta : String → Nat) :
    ∀ (w : List (String × List String)) (fs : BackupFS),
      (recIterGo bd rule srcMeta w fs).created = [] →
      (recIterGo bd rule srcMeta w fs).fs = fs
  | [], _, _ => rfl
  | e :: rest, fs, h => by
    by_cases hd : (dirLookup fs (walkDir bd e)).isSome
    · simp only [recIterGo, if_pos hd, List.nil_append] at h ⊢
      exact recIterGo_nocreate_fs bd rule srcMeta rest fs h
    · simp only [recIterGo, if_neg hd] at h
      exact absurd h (by simp)

theorem recIterGo_present_nocreate (bd : String) (rule : String → Bool)
    (srcMeta : String → Nat) :
    ∀ (w : List (String × List String)) (fs : BackupFS),
      (∀ e ∈ w, (dirLookup fs (walkDir bd e)).isSome) →
      (recIterGo bd rule srcMeta w fs).created = []
  | [], _, _ => rfl
  | e :: rest, fs, h => by
    have hd := h e (List.mem_cons_self e rest)
    simp only [recIterGo, if_pos hd, List.nil_append]
    exact recIterGo_present_nocreate bd rule srcMeta rest fs
      (fun x hx => h x (List.mem_cons_of_mem e hx))

theorem recIterGo_yields (bd : String) (rule : String → Bool)
    (srcMeta : String → Nat) :
    ∀ (w : List (String × List String)) (fs : BackupFS),
      (recIterGo bd rule srcMeta w fs).yields
        = w.flatMap (fun e =>
            (e.2.filter rule).map (fun fn => joinPath (walkFolder e) fn))
  | [], _ => rfl
  | e :: rest, fs => by
    by_cases hd : (dirLookup fs (walkDir bd e)).isSome
    · simp only [recIterGo, if_pos hd, List.flatMap_cons]
      rw [recIterGo_yields bd rule srcMeta rest]
    · simp only [recIterGo, if_neg hd, List.flatMap_cons]
      rw [recIterGo_yields bd rule srcMeta rest]

theorem sortWalk_mem (w : List (String × List String))
    (e : String × List String) : e ∈ sortWalk w ↔ e ∈ w :=
  List.mem_mergeSort

theorem sortWalk_singleton (e : String × List String) : sortWalk [e] = [e] :=
  List.perm_singleton.mp (List.mergeSort_perm [e] _)

theorem sortWalk_eq_of_perm (w1 w2 : List (String × List String))
    (hperm : w1.Perm w2) (hnd : (w1.map Prod.fst).Nodup) :
    sortWalk w1 = sortWalk w2 := by
  have htrans : ∀ a b c : String × List String,
      decide (a.1 ≤ b.1) = true → decide (b.1 ≤ c.1) = true →
        decide (a.1 ≤ c.1) = true := by
    intro a b c h1 h2
    simp only [decide_eq_true_eq] at h1 h2 ⊢
    exact le_trans h1 h2
  have htotal : ∀ a b : String × List String,
      (decide (a.1 ≤ b.1) || decide (b.1 ≤ a.1)) = true := by
    intro a b
    simp only [Bool.or_eq_true, decide_eq_true_eq]
    exact le_total a.1 b.1
  have hp : (sortWalk w1).Perm (sortWalk w2) :=
    (List.mergeSort_perm w1 _).trans
      (hperm.trans (List.mergeSort_perm w2 _).symm)
  have hnd2 : (w2.map Prod.fst).Nodup := ((hperm.map Prod.fst).nodup_iff).mp hnd
  have key : ∀ (w : List (String × List String)), (w.map Prod.fst).Nodup →
      (sortWalk w).Pairwise (fun a b => a.1 < b.1) := by
    intro w hw
    have hs := List.sorted_mergeSort htrans htotal w
    have hwn : ((sortWalk w).map Prod.fst).Nodup :=
      (((List.mergeSort_perm w _).map Prod.fst).nodup_iff).mpr hw
    have hne : (sortWalk w).Pairwise (fun a b => a.1 ≠ b.1) :=
      List.pairwise_map.mp hwn
    exact (hs.and hne).imp (fun h => lt_of_le_of_ne (by simpa using h.1) h.2)
  haveI : IsAntisymm (String × List String) (fun a b => a.1 < b.1) :=
    ⟨fun a b h1 h2 => absurd (h1.trans h2) (lt_irrefl _)⟩
  exact List.eq_of_perm_of_sorted hp (key w1 hnd) (key w2 hnd2)

/-! ### Claim C6: lazy, one-shot directory mirroring -/

/-- C6: in recursive mode, for every walk entry (whether or not it
lists any files), its backup-side directory is created — with the
source directory's metadata copied onto it — exactly when it does not
exist yet; a second run over the same tree (arbitrary later rules and
arbitrarily changed source metadata) creates nothing and changes no
backup-side directory metadata except the backup root's, which every
run's final `copystat('.', backup_dir)` refreshes. -/
theorem dir_mirroring_once (bd : String) (rule rule2 : String → Bool)
    (srcMeta srcMeta2 : String → Nat) (w : List (String × List String))
    (fs : BackupFS) (hnd : (w.map (walkDir bd)).Nodup) :
    (∀ e ∈ w, (walkDir bd e ∈ (recFileIter bd rule srcMeta w fs).created ↔
        dirLookup fs (walkDir bd e) = none)) ∧
    (∀ e ∈ w, walkDir bd e ≠ normDir bd →
        dirLookup fs (walkDir bd e) = none →
        dirLookup (recFileIter bd rule srcMeta w fs).fs (walkDir bd e)
          = some (srcMeta (walkFolder e))) ∧
    (recFileIter bd rule2 srcMeta2 w
        (recFileIter bd rule srcMeta w fs).fs).created = [] ∧
    (∀ d : String, d ≠ normDir bd →
        dirLookup (recFileIter bd rule2 srcMeta2 w
            (recFileIter bd rule srcMeta w fs).fs).fs d
          = dirLookup (recFileIter bd rule srcMeta w fs).fs d) := by
  have hndS : ((sortWalk w).map (walkDir bd)).Nodup :=
    (((List.mergeSort_perm w _).map (walkDir bd)).nodup_iff).mpr hnd
  have hcreated : (recFileIter bd rule srcMeta w fs).created
      = (recIterGo bd rule srcMeta (sortWalk w) fs).created := rfl
  have hfs1 : (recFileIter bd rule srcMeta w fs).fs
      = ⟨lastUpdate (recIterGo bd rule srcMeta (sortWalk w) fs).fs.dirs
          (normDir bd) (srcMeta "")⟩ := rfl
  have hpresent1 : ∀ e ∈ w,
      (dirLookup (recFileIter bd rule srcMeta w fs).fs (walkDir bd e)).isSome := by
    intro e he
    have h0 := recIterGo_visited_present bd rule srcMeta (sortWalk w) fs e
      ((sortWalk_mem w e).mpr he)
    rw [hfs1]
    show (dirFind (lastUpdate _ (normDir bd) (srcMeta "")) (walkDir bd e)).isSome
    rw [dirFind_lastUpdate]
    by_cases hroot : walkDir bd e = normDir bd
    · rw [if_pos hroot]; rfl
    · rw [if_neg hroot]; exact h0
  have hnocreate2 : (recIterGo bd rule2 srcMeta2 (sortWalk w)
      (recFileIter bd rule srcMeta w fs).fs).created = [] := by
    apply recIterGo_present_nocreate
    intro e he
    exact hpresent1 e ((sortWalk_mem w e).mp he)
  refine ⟨?_, ?_, ?_, ?_⟩
  · intro e he
    rw [hcreated]
    constructor
    · exact recIterGo_created_absent bd rule srcMeta (sortWalk w) fs (walkDir bd e)
    · exact recIterGo_absent_created bd rule srcMeta (sortWalk w) fs e
        ((sortWalk_mem w e).mpr he)
  · intro e he hne habs
    have h0 := recIterGo_created_value bd rule srcMeta (sortWalk w) fs e hndS
      ((sortWalk_mem w e).mpr he) habs
    rw [hfs1]
    show dirFind (lastUpdate _ (normDir bd) (srcMeta "")) (walkDir bd e) = _
    rw [dirFind_lastUpdate, if_neg hne]
    exact h0
  · exact hnocreate2
  · intro d hdroot
    have hfseq := recIterGo_nocreate_fs bd rule2 srcMeta2 (sortWalk w)
      (recFileIter bd rule srcMeta w fs).fs hnocreate2
    show dirFind (lastUpdate (recIterGo bd rule2 srcMeta2 (sortWalk w)
        (recFileIter bd rule srcMeta w fs).fs).fs.dirs
          (normDir bd) (srcMeta2 "")) d = _
    rw [hfseq, dirFind_lastUpdate, if_neg hdroot]
    rfl

/-- C6 witness: a fresh subdirectory `a` is mirrored on the first run;
the second run (with changed source metadata) creates nothing. -/
theorem dir_mirroring_once_witness :
    ((walkDir "/bk" ("./a", ["f"]) ∈
        (recFileIter "/bk" (fun _ => true) (fun s => s.data.length + 1)
          [("./a", ["f"])] ⟨[("/bk", 7)]⟩).created) ↔
      dirLookup ⟨[("/bk", 7)]⟩ (walkDir "/bk" ("./a", ["f"])) = none) ∧
    (recFileIter "/bk" (fun _ => true) (fun s => s.data.length + 2)
        [("./a", ["f"])]
        (recFileIter "/bk" (fun _ => true) (fun s => s.data.length + 1)
          [("./a", ["f"])] ⟨[("/bk", 7)]⟩).fs).created = [] :=
  ⟨(dir_mirroring_once "/bk" (fun _ => true) (fun _ => true)
      (fun s => s.data.length + 1) (fun s => s.data.length + 2)
      [("./a", ["f"])] ⟨[("/bk", 7)]⟩ (by decide)).1 ("./a", ["f"]) (by decide),
    (dir_mirroring_once "/bk" (fun _ => true) (fun _ => true)
      (fun s => s.data.length + 1) (fun s => s.data.length + 2)
      [("./a", ["f"])] ⟨[("/bk", 7)]⟩ (by decide)).2.2.1⟩

/-! ### Claim C9: determinism of the traversal order -/

/-- C9 counterexample: `sorted(walk('.'))` sorts the directories but
not the `file_names` within each directory, so over the same tree —
same directory, same set of files — two runs whose operating system
lists the directory's files in different orders yield different
sequences. -/
theorem recursive_order_nondeterministic :
    (["b", "a"] : List String).Perm ["a", "b"] ∧
    (recFileIter "/bk" (fun _ => true) (fun _ => 0)
        [("./d", ["b", "a"])] ⟨[("/bk", 0)]⟩).yields = ["d/b", "d/a"] ∧
    (recFileIter "/bk" (fun _ => true) (fun _ => 0)
        [("./d", ["a", "b"])] ⟨[("/bk", 0)]⟩).yields = ["d/a", "d/b"] := by
  refine ⟨by decide, ?_, ?_⟩ <;>
    · simp only [recFileIter, sortWalk_singleton]
      decide

/-- C9 amended: the traversal visits directories in a deterministic
(sorted) order, so two runs over the same tree yield the same sequence
provided the operating system reports each directory's `file_names`
list identically; the walk-level order of the directory entries (and
the backup-tree state and source metadata) may differ arbitrarily. -/
theorem recursive_order_deterministic (bd : String) (rule : String → Bool)
    (srcMeta srcMeta2 : String → Nat) (w1 w2 : List (String × List String))
    (fs1 fs2 : BackupFS) (hperm : w1.Perm w2)
    (hnd : (w1.map Prod.fst).Nodup) :
    (recFileIter bd rule srcMeta w1 fs1).yields
      = (recFileIter bd rule srcMeta2 w2 fs2).yields := by
  show (recIterGo bd rule srcMeta (sortWalk w1) fs1).yields
    = (recIterGo bd rule srcMeta2 (sortWalk w2) fs2).yields
  rw [recIterGo_yields, recIterGo_yields, sortWalk_eq_of_perm w1 w2 hperm hnd]

/-- C9 amended witness: directory-level listing order does not affect
the yielded sequence. -/
theorem recursive_order_deterministic_witness :
    ([(("./b" : String), (["y"] : List String)), ("./a", ["x"])]).Perm
        [("./a", ["x"]), ("./b", ["y"])] ∧
    (recFileIter "/bk" (fun _ => true) (fun _ => 0)
        [("./b", ["y"]), ("./a", ["x"])] ⟨[]⟩).yields
      = (recFileIter "/bk" (fun _ => true) (fun _ => 1)
        [("./a", ["x"]), ("./b", ["y"])] ⟨[("/bk", 0)]⟩).yields :=
  ⟨by decide,
    recursive_order_deterministic "/bk" (fun _ => true) (fun _ => 0)
      (fun _ => 1) [("./b", ["y"]), ("./a", ["x"])]
      [("./a", ["x"]), ("./b", ["y"])] ⟨[]⟩ ⟨[("/bk", 0)]⟩
      (by decide) (by decide)⟩

/-! ### Claim C8: the flat enumerator -/

/-- The enumerator claim C8 describes, following the spec's words
("every entry ... that is a regular file (symlinks/directories
excluded)"): only entries that themselves are regular files pass.
Stated solely for comparison with `flatFileGetter`, which embeds the
code's `isfile`-based filter. -/
def specFlatFileGetter (rule : String → Bool) (entries : List DirEnt) :
    List String :=
  (entries.filter (fun e => (e.kind == EntryKind.regular) && rule e.name)).map
    (fun e => e.name)

/-- C8 counterexample: `os.path.isfile` follows symbolic links, so a
symlink to a regular file is yielded by the code although the claim
excludes every symlink. -/
theorem flat_symlink_counterexample :
    flatFileGetter (fun _ => true) [⟨"s", .symlinkToRegular⟩] = ["s"] ∧
    specFlatFileGetter (fun _ => true) [⟨"s", .symlinkToRegular⟩] = [] ∧
    (["s"] : List String) ≠ [] := by decide

/-- C8 amended: the flat enumerator yields exactly those immediate
entries that resolve — following symbolic links — to regular files and
pass the exclusion filter: directories, symlinks to directories and
broken symlinks are excluded, but a symlink to a regular file is
yielded. -/
theorem flat_files_follow_symlinks (rule : String → Bool)
    (entries : List DirEnt) :
    flatFileGetter rule entries
      = (entries.filter (fun e =>
          (e.kind == EntryKind.regular || e.kind == EntryKind.symlinkToRegular)
            && rule e.name)).map (fun e => e.name) := by
  have hk : ∀ e : DirEnt, (isfile e.kind && rule e.name)
      = ((e.kind == EntryKind.regular || e.kind == EntryKind.symlinkToRegular)
          && rule e.name) := by
    intro e
    cases e.kind <;> rfl
  unfold flatFileGetter
  rw [List.filter_congr (fun e _ => hk e)]

/-! ### Claim C7: the retry-on-interrupt policy -/

/-- Outcome of one `rsync_files` call. -/
inductive CopyOutcome where
  | ok
  | interrupted
  | failed
deriving DecidableEq, Repr, Fintype

/-- The exception escaping the `try`/`except KeyboardInterrupt` block. -/
inductive Exn where
  | keyboardInterrupt
  | copyError
deriving DecidableEq, Repr

/-- What lines 98–105 of `main` do for one triggered file: how many
`rsync_files` calls ran, which exception (if any) propagates out of the
block — terminating the process — and whether the
`last_change_time[file] = time_stamp` update and the log write that
follow the block were reached. `o1` is the outcome of the first call,
`o2` of the retry (consulted only when the first call raised
`KeyboardInterrupt`). -/
structure AttemptResult where
  attempts : Nat
  exn : Option Exn
  stateUpdated : Bool
  logWritten : Bool
deriving DecidableEq, Repr

def processFileAttempt (o1 o2 : CopyOutcome) : AttemptResult :=
  match o1 with
  | .ok => ⟨1, none, true, true⟩
  | .failed => ⟨1, some .copyError, false, false⟩
  | .interrupted =>
    match o2 with
    | .ok => ⟨2, some .keyboardInterrupt, false, false⟩
    | .interrupted => ⟨2, some .keyboardInterrupt, false, false⟩
    | .failed => ⟨2, some .copyError, false, false⟩

/-- C7: an interruption during the copy leads to exactly one
synchronous retry followed by a propagating exception (the interruption
itself whenever the retry does not fail in a new way); any other copy
failure propagates immediately after a single attempt; in every failure
case neither the recorded timestamp nor the log is touched, while a
successful single copy updates both. -/
theorem copy_retry_policy :
    (∀ o2, (processFileAttempt .interrupted o2).attempts = 2 ∧
      (processFileAttempt .interrupted o2).exn.isSome = true ∧
      (processFileAttempt .interrupted o2).stateUpdated = false ∧
      (processFileAttempt .interrupted o2).logWritten = false) ∧
    (processFileAttempt .interrupted .ok).exn = some .keyboardInterrupt ∧
    (processFileAttempt .interrupted .interrupted).exn
      = some .keyboardInterrupt ∧
    (∀ o2, (processFileAttempt .failed o2).attempts = 1 ∧
      (processFileAttempt .failed o2).exn = some .copyError ∧
      (processFileAttempt .failed o2).stateUpdated = false ∧
      (processFileAttempt .failed o2).logWritten = false) ∧
    (∀ o2, (processFileAttempt .ok o2).attempts = 1 ∧
      (processFileAttempt .ok o2).exn = none ∧
      (processFileAttempt .ok o2).stateUpdated = true ∧
      (processFileAttempt .ok o2).logWritten = true) := by
  decide

/-! ### Claim C10: parent-directory metadata on every copy -/

/-- Filesystem-level actions of `rsync_files` and the guarded copy. -/
inductive FsAction where
  | copyFile (src dest : String)
  | copyStatDir (src dest : String)
  | copyAborted (src dest : String)
deriving DecidableEq, Repr

/-- The directory `rsync_files` reads metadata from:
`dirname(src_file)`, replaced by `'.'` when empty. -/
def srcParent (src : String) : String :=
  if (dirname src).data.isEmpty then "." else dirname src

/-- The trace of one `rsync_files(src, dest)` call: a completed `copy2`
is followed unconditionally by `copystat` of the source parent onto the
destination parent; a call that raises performs no `copystat`. -/
def rsyncTrace (src dest : String) : CopyOutcome → List FsAction
  | .ok => [.copyFile src dest, .copyStatDir (srcParent src) (dirname dest)]
  | .interrupted => [.copyAborted src dest]
  | .failed => [.copyAborted src dest]

/-- The trace of the guarded copy of `main` (lines 99–103), including
the synchronous retry after an interruption. -/
def processFileTrace (src dest : String) (o1 o2 : CopyOutcome) :
    List FsAction :=
  match o1 with
  | .ok => rsyncTrace src dest .ok
  | .interrupted => rsyncTrace src dest .interrupted ++ rsyncTrace src dest o2
  | .failed => rsyncTrace src dest .failed

/-- C10: every completed file copy — the plain success and the
successful retry after an interruption alike — is accompanied by a
`copystat` of the source file's containing directory onto the
backup-side parent directory: the traces are pinned exactly, and in
every trace the number of parent-metadata copies equals the number of
completed file copies. -/
theorem copy_always_syncs_parent_metadata (src dest : String) :
    (∀ o2, processFileTrace src dest .ok o2
        = [.copyFile src dest,
            .copyStatDir (srcParent src) (dirname dest)]) ∧
    processFileTrace src dest .interrupted .ok
        = [.copyAborted src dest, .copyFile src dest,
            .copyStatDir (srcParent src) (dirname dest)] ∧
    (∀ o1 o2, ((processFileTrace src dest o1 o2).count
          (.copyStatDir (srcParent src) (dirname dest)))
        = (processFileTrace src dest o1 o2).count (.copyFile src dest)) := by
  refine ⟨fun o2 => rfl, rfl, fun o1 o2 => ?_⟩
  cases o1 <;> cases o2 <;>
    simp [processFileTrace, rsyncTrace, List.count_cons, List.count_nil]

end FileBackupDaemon
